import Mathlib

/-!
# chat-engine: rooms, registry and broadcast

A shallow embedding of `main.go` (package `main` of refaldyrk/chat-engine) and the
properties of its room registry, its room actor and its publish path.

* Go `string` values are Lean `String`s; `[]byte(s)` is the UTF-8 encoding of `s`.
* `crypto/sha256` and `encoding/hex` (Go standard library) are written out in full
  (FIPS 180-4, 32-bit words as `Nat` reduced modulo `2 ^ 32`).
* `aes256.Encrypt` / `aes256.Decrypt` (github.com/mervick/aes-everywhere) are a parameter
  of the handlers, see `Cipher`.
* `*Room` pointers are indices into the list of allocated `Room` objects.
* A channel is named by a number; a send on an unbuffered channel completes at the first
  scheduler tick at which a goroutine is receiving on it.
-/

namespace ChatEngine

/-! ## crypto/sha256 and encoding/hex -/

namespace sha256

/-- Word size of SHA-256: all word arithmetic is modulo `2 ^ 32`. -/
def wordMod : Nat := 2 ^ 32

/-- Right rotation of a 32-bit word by `n` bits (`0 < n < 32`). -/
def rotr (x n : Nat) : Nat := ((x >>> n) ||| (x <<< (32 - n))) % wordMod

/-- Bitwise complement of a 32-bit word. -/
def not32 (x : Nat) : Nat := (wordMod - 1) ^^^ (x % wordMod)

/-- The choice function `Ch(x, y, z) = (x ∧ y) ⊕ (¬x ∧ z)`. -/
def ch (x y z : Nat) : Nat := (x &&& y) ^^^ (not32 x &&& z)

/-- The majority function `Maj(x, y, z)`. -/
def maj (x y z : Nat) : Nat := (x &&& y) ^^^ (x &&& z) ^^^ (y &&& z)

/-- The function `Σ₀`. -/
def bigSigma0 (x : Nat) : Nat := rotr x 2 ^^^ rotr x 13 ^^^ rotr x 22

/-- The function `Σ₁`. -/
def bigSigma1 (x : Nat) : Nat := rotr x 6 ^^^ rotr x 11 ^^^ rotr x 25

/-- The function `σ₀`. -/
def smallSigma0 (x : Nat) : Nat := rotr x 7 ^^^ rotr x 18 ^^^ (x >>> 3)

/-- The function `σ₁`. -/
def smallSigma1 (x : Nat) : Nat := rotr x 17 ^^^ rotr x 19 ^^^ (x >>> 10)

/-- The sixty-four round constants. -/
def K : List Nat :=
  [0x428a2f98, 0x71374491, 0xb5c0fbcf, 0xe9b5dba5, 0x3956c25b, 0x59f111f1, 0x923f82a4, 0xab1c5ed5,
   0xd807aa98, 0x12835b01, 0x243185be, 0x550c7dc3, 0x72be5d74, 0x80deb1fe, 0x9bdc06a7, 0xc19bf174,
   0xe49b69c1, 0xefbe4786, 0x0fc19dc6, 0x240ca1cc, 0x2de92c6f, 0x4a7484aa, 0x5cb0a9dc, 0x76f988da,
   0x983e5152, 0xa831c66d, 0xb00327c8, 0xbf597fc7, 0xc6e00bf3, 0xd5a79147, 0x06ca6351, 0x14292967,
   0x27b70a85, 0x2e1b2138, 0x4d2c6dfc, 0x53380d13, 0x650a7354, 0x766a0abb, 0x81c2c92e, 0x92722c85,
   0xa2bfe8a1, 0xa81a664b, 0xc24b8b70, 0xc76c51a3, 0xd192e819, 0xd6990624, 0xf40e3585, 0x106aa070,
   0x19a4c116, 0x1e376c08, 0x2748774c, 0x34b0bcb5, 0x391c0cb3, 0x4ed8aa4a, 0x5b9cca4f, 0x682e6ff3,
   0x748f82ee, 0x78a5636f, 0x84c87814, 0x8cc70208, 0x90befffa, 0xa4506ceb, 0xbef9a3f7, 0xc67178f2]

/-- The eight working variables `a … h`, also the chaining value between blocks. -/
structure State where
  a : Nat
  b : Nat
  c : Nat
  d : Nat
  e : Nat
  f : Nat
  g : Nat
  h : Nat
  deriving DecidableEq, Repr

/-- The initial hash value. -/
def init : State :=
  ⟨0x6a09e667, 0xbb67ae85, 0x3c6ef372, 0xa54ff53a, 0x510e527f, 0x9b05688c, 0x1f83d9ab, 0x5be0cd19⟩

/-- Padding: a `0x80` byte, zero bytes up to 56 modulo 64, then the bit length as a
big-endian 64-bit integer. -/
def pad (msg : List Nat) : List Nat :=
  let bits := (msg.length * 8) % 2 ^ 64
  msg ++ [0x80] ++ List.replicate ((64 - (msg.length + 9) % 64) % 64) 0
    ++ (List.range 8).map (fun i => (bits >>> (8 * (7 - i))) % 256)

/-- Big-endian 32-bit words of a byte sequence (four bytes per word). -/
def toWords : List Nat → List Nat
  | b0 :: b1 :: b2 :: b3 :: rest =>
      ((b0 % 256) * 2 ^ 24 + (b1 % 256) * 2 ^ 16 + (b2 % 256) * 2 ^ 8 + b3 % 256) :: toWords rest
  | _ => []

/-- Extension of the message schedule by `n` further words; `w` holds the words computed
so far, most recent first. -/
def extend : Nat → List Nat → List Nat
  | 0, w => w
  | n + 1, w =>
      let w2 := w.getD 1 0
      let w7 := w.getD 6 0
      let w15 := w.getD 14 0
      let w16 := w.getD 15 0
      extend n (((smallSigma1 w2 + w7 + smallSigma0 w15 + w16) % wordMod) :: w)

/-- The message schedule `W₀ … W₆₃` of a block of sixteen words. -/
def schedule (block : List Nat) : List Nat := (extend 48 block.reverse).reverse

/-- One round of the compression function with round constant `k` and schedule word `w`. -/
def round (s : State) (k w : Nat) : State :=
  let t1 := (s.h + bigSigma1 s.e + ch s.e s.f s.g + k + w) % wordMod
  let t2 := (bigSigma0 s.a + maj s.a s.b s.c) % wordMod
  ⟨(t1 + t2) % wordMod, s.a, s.b, s.c, (s.d + t1) % wordMod, s.e, s.f, s.g⟩

/-- The sixty-four rounds over the constants paired with the schedule. -/
def rounds (s : State) : List (Nat × Nat) → State
  | [] => s
  | (k, w) :: rest => rounds (round s k w) rest

/-- Compression of one block into the chaining value. -/
def compress (s : State) (block : List Nat) : State :=
  let t := rounds s (K.zip (schedule block))
  ⟨(s.a + t.a) % wordMod, (s.b + t.b) % wordMod, (s.c + t.c) % wordMod, (s.d + t.d) % wordMod,
   (s.e + t.e) % wordMod, (s.f + t.f) % wordMod, (s.g + t.g) % wordMod, (s.h + t.h) % wordMod⟩

/-- Compression of `n` consecutive blocks of sixteen words. -/
def blocks : Nat → State → List Nat → State
  | 0, s, _ => s
  | n + 1, s, ws => blocks n (compress s (ws.take 16)) (ws.drop 16)

/-- The four bytes of a word, most significant first. -/
def wordBytes (w : Nat) : List Nat :=
  [(w >>> 24) % 256, (w >>> 16) % 256, (w >>> 8) % 256, w % 256]

/-- The chaining value after absorbing the padded message. -/
def digest (msg : List Nat) : State :=
  let ws := toWords (pad msg)
  blocks (ws.length / 16) init ws

/-- The thirty-two digest bytes: `hash.Write(msg); hash.Sum(nil)`. -/
def Sum (msg : List Nat) : List Nat :=
  let s := digest msg
  wordBytes s.a ++ wordBytes s.b ++ wordBytes s.c ++ wordBytes s.d ++
    wordBytes s.e ++ wordBytes s.f ++ wordBytes s.g ++ wordBytes s.h

end sha256

namespace hex

/-- The lower-case hexadecimal digit of a nibble (`hextable` of `encoding/hex`). -/
def digit (n : Nat) : Char := "0123456789abcdef".data.getD (n % 16) '0'

/-- Two digits per byte, high nibble first: `hex.EncodeToString`. -/
def EncodeToString (src : List Nat) : String :=
  String.mk (src.flatMap (fun b => [digit (b / 16), digit b]))

end hex

/-- The bytes of a Go string: `[]byte(s)`. -/
def bytes (s : String) : List Nat :=
  s.data.flatMap (fun c => (String.utf8EncodeChar c).map (fun b => b.toNat))

/-- Source: `generateRoomSecret` derives the room secret, the hexadecimal SHA-256 digest of the room identifier. -/
def generateRoomSecret (roomID : String) : String :=
  hex.EncodeToString (sha256.Sum (bytes roomID))

/-- All eight words of a chaining value are below `2 ^ 32`. -/
def sha256.Bounded (s : sha256.State) : Prop :=
  s.a < 2 ^ 32 ∧ s.b < 2 ^ 32 ∧ s.c < 2 ^ 32 ∧ s.d < 2 ^ 32 ∧
    s.e < 2 ^ 32 ∧ s.f < 2 ^ 32 ∧ s.g < 2 ^ 32 ∧ s.h < 2 ^ 32

/-- The identifier spelled by a choice of `a` or `b` at each position. -/
def spell (bits : List Bool) : String :=
  String.mk (bits.map (fun b => if b then 'a' else 'b'))

/-! ## Data model -/

/-- A channel, named by a number; `make(chan T)` yields a channel not in use before. -/
abbrev Chan := Nat

/-- A `*Room`: the index of the `Room` object among the allocated ones. -/
abbrev RoomPtr := Nat

/-- Source: `Client`, one attached stream consumer. -/
structure Client where
  ID : String
  MessageChan : Chan
  deriving DecidableEq, Repr

/-- A Go `map[string]*Client`: finitely many entries, at most one per key. `range` visits
the entries in an order the runtime chooses; here it is the order of `entries`. -/
abbrev ClientMap := AList (fun _ : String => Client)

/-- Source: `Room`. The channels `AddClient` and `RemoveClient` are represented by the
values received on them, see `RunEvent`. -/
structure Room where
  ID : String
  Clients : ClientMap
  Secret : String
  deriving DecidableEq

/-- Source: `ChatServer` together with the memory it points into. `Rooms` is the map
guarded by `mu`, `heap` the `Room` objects allocated so far, `actors` the rooms for which
`go newRoom.Run()` has been executed. -/
structure ChatServer where
  Rooms : AList (fun _ : String => RoomPtr)
  heap : List Room
  actors : List RoomPtr
  deriving DecidableEq

/-- Source: `NewChatServer`. -/
def NewChatServer : ChatServer := ⟨∅, [], []⟩

namespace ChatServer

/-- Dereference of a `*Room`. -/
def deref (cs : ChatServer) (p : RoomPtr) : Option Room := cs.heap[p]?

/-- The guard of `GetRoom`: `room, ok := cs.Rooms[roomID]; ok && room.Secret != ""`. A pointer
stored in the map always refers to an allocated room (`Reachable.sound`); for a pointer that
does not, the guard is taken to fail. -/
def existing (cs : ChatServer) (roomID : String) : Option RoomPtr :=
  match cs.Rooms.lookup roomID with
  | none => none
  | some p =>
    match cs.deref p with
    | none => none
    | some room => if room.Secret ≠ "" then some p else none

/-- Source: `ChatServer.GetRoom`, executed under `cs.mu`: the pointer returned and the state
afterwards. -/
def GetRoom (cs : ChatServer) (roomID : String) : RoomPtr × ChatServer :=
  match cs.existing roomID with
  | some p => (p, cs)
  | none =>
    let newRoom : Room := { ID := roomID, Clients := ∅, Secret := generateRoomSecret roomID }
    let p := cs.heap.length
    (p, { Rooms := cs.Rooms.insert roomID p, heap := cs.heap ++ [newRoom],
          actors := cs.actors ++ [p] })

end ChatServer

/-- The values `Room.Run` receives in its `select`: a client on `AddClient`, a client
identifier on `RemoveClient`. -/
inductive RunEvent where
  | AddClient (client : Client)
  | RemoveClient (clientID : String)
  deriving DecidableEq

namespace Room

/-- One iteration of the `select` loop of `Room.Run`. -/
def step (r : Room) : RunEvent → Room
  | .AddClient client => { r with Clients := r.Clients.insert client.ID client }
  | .RemoveClient clientID => { r with Clients := r.Clients.erase clientID }

/-- Source: `Room.Run` on the events received so far, oldest first. -/
def Run (r : Room) (events : List RunEvent) : Room := events.foldl step r

end Room

/-- One iteration of the `Run` goroutine of the room at `p`, if it was started. -/
def ChatServer.runActor (cs : ChatServer) (p : RoomPtr) (ev : RunEvent) : ChatServer :=
  if p ∈ cs.actors then
    match cs.deref p with
    | some room => { cs with heap := cs.heap.set p (room.step ev) }
    | none => cs
  else cs

/-- The server states reached from `NewChatServer` by calls of `GetRoom` and by iterations
of the `Run` goroutines. -/
inductive Reachable : ChatServer → Prop
  | init : Reachable NewChatServer
  | getRoom (cs : ChatServer) (roomID : String) : Reachable cs → Reachable (cs.GetRoom roomID).2
  | run (cs : ChatServer) (p : RoomPtr) (ev : RunEvent) : Reachable cs →
      Reachable (cs.runActor p ev)

/-- Every registered room is allocated, runs its actor, carries the key it is stored under
and the secret derived from that key. -/
def ChatServer.Sound (cs : ChatServer) : Prop :=
  ∀ k p, cs.Rooms.lookup k = some p →
    p ∈ cs.actors ∧ ∃ room, cs.deref p = some room ∧ room.ID = k ∧
      room.Secret = generateRoomSecret k

/-- A client attached to room `alpha` in the examples. -/
def bob : Client := ⟨"bob", 1⟩

/-- The server after room `alpha` was resolved once and `bob` was registered in it. -/
def alphaServer : ChatServer := (NewChatServer.GetRoom "alpha").2.runActor 0 (.AddClient bob)

/-! ## Channels -/

/-- The goroutines receiving: `ready t ch` holds when at tick `t` a goroutine is blocked in
a receive on `ch`. -/
abbrev Readers := Nat → Chan → Bool

/-- A send statement `ch <- msg`. -/
structure Send where
  ch : Chan
  msg : String
  deriving DecidableEq, Repr

/-- How far a sequence of send statements has got: the sends completed, the statements not
yet completed (the goroutine is blocked in the first of them) and the current tick. -/
structure Progress where
  delivered : List Send
  pending : List Send
  now : Nat
  deriving DecidableEq, Repr

/-- Execution of send statements on unbuffered channels for `fuel` ticks from tick `now`: the
statement at the head completes at a tick at which a goroutine is receiving on its channel,
and otherwise keeps the sender blocked. -/
def sendAll (ready : Readers) : Nat → Nat → List Send → List Send → Progress
  | _, now, [], done => ⟨done, [], now⟩
  | 0, now, s :: rest, done => ⟨done, s :: rest, now⟩
  | fuel + 1, now, s :: rest, done =>
      if ready now s.ch then sendAll ready fuel (now + 1) rest (done ++ [s])
      else sendAll ready fuel (now + 1) (s :: rest) done

/-- The send statements of `for _, client := range r.Clients { client.MessageChan <- message }`. -/
def Room.sends (r : Room) (message : String) : List Send :=
  r.Clients.entries.map (fun e => ⟨e.2.MessageChan, message⟩)

/-- Source: `Room.Broadcast`, run for `fuel` ticks from tick `now` in the goroutine of the
caller: the room afterwards and the progress made. It has returned when nothing is pending. -/
def Room.Broadcast (r : Room) (message : String) (ready : Readers) (fuel now : Nat) :
    Room × Progress :=
  (r, sendAll ready fuel now (r.sends message) [])

/-- Every client of the room has a channel of its own (each `handleChat` makes one). -/
def Room.DistinctChans (r : Room) : Prop :=
  ∀ k1 k2 c1 c2, r.Clients.lookup k1 = some c1 → r.Clients.lookup k2 = some c2 →
    c1.MessageChan = c2.MessageChan → k1 = k2

/-- The reader of every client of the room keeps coming back to its receive. -/
def Room.ReadersLive (r : Room) (ready : Readers) : Prop :=
  ∀ k c, r.Clients.lookup k = some c → ∀ t, ∃ t1, t ≤ t1 ∧ ready t1 c.MessageChan = true

/-- A client whose handler has left its receive loop: nobody receives on its channel. -/
def eve : Client := ⟨"eve", 7⟩

/-- Room `alpha` with `bob` and, attached after him, `eve`: `range` reaches `eve` first. -/
def stalledRoom : Room :=
  { ID := "alpha", Clients := ((∅ : ClientMap).insert "bob" bob).insert "eve" eve,
    Secret := generateRoomSecret "alpha" }

/-- A goroutine receives on the channel of `bob` at every tick, and on no other channel. -/
def bobOnly : Readers := fun _ ch => ch == 1

/-! ## Handlers -/

/-- The two operations of `aes256`. `Encrypt` draws a random salt; a value of this type fixes
the salts drawn. -/
structure Cipher where
  Encrypt : String → String → String
  Decrypt : String → String → String

/-- The round-trip law of the cipher. -/
def Cipher.RoundTrip (aes : Cipher) : Prop :=
  ∀ plaintext secret : String, aes.Decrypt (aes.Encrypt plaintext secret) secret = plaintext

/-- A keyed cipher obeying the round-trip law: the ciphertext is the passphrase followed by
the plaintext. -/
def Cipher.prefixing : Cipher where
  Encrypt := fun plaintext secret => String.mk (secret.data ++ plaintext.data)
  Decrypt := fun ciphertext secret => String.mk (ciphertext.data.drop secret.data.length)

/-- The part of an `*http.Request` the handlers read: the method, `r.FormValue(key)` and
`r.URL.Query().Get(key)` (the empty string for an absent key). -/
structure Request where
  Method : String
  FormValue : String → String
  Query : String → String

/-- What `handleSend` has done after `fuel` ticks: the server state, the status code written
(`none` while no response has been written) and the sends completed. -/
structure SendResult where
  cs : ChatServer
  status : Option Nat
  delivered : List Send
  deriving DecidableEq

/-- Source: `handleSend`, run for `fuel` ticks from tick `now`. -/
def handleSend (aes : Cipher) (cs : ChatServer) (r : Request) (ready : Readers)
    (fuel now : Nat) : SendResult :=
  if r.Method ≠ "POST" then ⟨cs, some 405, []⟩
  else if r.FormValue "room_id" = "" then ⟨cs, some 400, []⟩
  else if r.FormValue "message" = "" then ⟨cs, some 400, []⟩
  else
    let (p, cs1) := cs.GetRoom (r.FormValue "room_id")
    match cs1.deref p with
    | none => ⟨cs1, none, []⟩
    | some room =>
      let encryptedMessage :=
        aes.Encrypt (r.FormValue "client_id" ++ ":" ++ r.FormValue "message") room.Secret
      let (room1, progress) := room.Broadcast encryptedMessage ready fuel now
      ⟨{ cs1 with heap := cs1.heap.set p room1 },
       if progress.pending = [] then some 200 else none, progress.delivered⟩

/-- What `handleChat` has set up when it enters its receive loop. -/
structure Attached where
  cs : ChatServer
  room : RoomPtr
  client : Client
  secret : String

/-- Source: `handleChat` up to its receive loop, `messageChan` being the channel made for the
client: the status code of a rejection, or the state after `room.AddClient <- client` has
been received by `Run`. -/
def handleChat.attach (cs : ChatServer) (r : Request) (messageChan : Chan) :
    Except Nat Attached :=
  if r.Query "room_id" = "" then .error 400
  else if r.Query "client_id" = "" then .error 400
  else
    let secret := generateRoomSecret (r.Query "room_id")
    let client : Client := ⟨r.Query "client_id", messageChan⟩
    let (p, cs1) := cs.GetRoom (r.Query "room_id")
    .ok ⟨cs1.runActor p (.AddClient client), p, client, secret⟩

/-- Source: `handleChat`, the branch `case message := <-client.MessageChan` of its loop: the
text written to the stream. -/
def handleChat.onMessage (aes : Cipher) (secret message : String) : String :=
  "data: " ++ aes.Decrypt message secret ++ "\n\n"

/-! ## A stalled client -/

/-- The server after `eve` was registered in room `alpha` as well, after `bob`. -/
def stalledServer : ChatServer := alphaServer.runActor 0 (.AddClient eve)

/-- The publish request of `carol`: message `hi` for room `alpha`. -/
def carolHi : Request where
  Method := "POST"
  FormValue := fun key =>
    if key = "room_id" then "alpha" else if key = "client_id" then "carol"
    else if key = "message" then "hi" else ""
  Query := fun _ => ""

/-- A publish request to room `alpha` without a message. -/
def noMessage : Request where
  Method := "POST"
  FormValue := fun key => if key = "room_id" then "alpha" else ""
  Query := fun _ => ""

/-- The connection request of `bob` for room `alpha`. -/
def bobJoins : Request where
  Method := "GET"
  FormValue := fun _ => ""
  Query := fun key =>
    if key = "room_id" then "alpha" else if key = "client_id" then "bob" else ""

/-- A goroutine receives on every channel at every tick. -/
def allReady : Readers := fun _ _ => true

/-! ## Accesses to the client map -/

/-- The goroutines of the program: the `Run` actor of a room (`go newRoom.Run()`) and the
goroutine `net/http` starts to serve a request. -/
inductive Goroutine where
  | actor (room : RoomPtr)
  | handler (conn : Nat)
  deriving DecidableEq, Repr

/-- An access to the `Clients` map of the room at `room` by the goroutine `who`. -/
structure Access where
  who : Goroutine
  room : RoomPtr
  write : Bool
  deriving DecidableEq, Repr

/-- The accesses of one iteration of `Room.Run`: `r.Clients[client.ID] = client` and
`delete(r.Clients, clientID)` are writes, executed by the actor of the room. -/
def Room.stepAccesses (p : RoomPtr) : RunEvent → List Access
  | .AddClient _ => [⟨.actor p, p, true⟩]
  | .RemoveClient _ => [⟨.actor p, p, true⟩]

/-- The accesses of `Room.Broadcast`: `range r.Clients` is a read, executed by the goroutine
that calls the method. -/
def Room.broadcastAccesses (caller : Goroutine) (p : RoomPtr) : List Access :=
  [⟨caller, p, false⟩]

/-- The accesses of `handleSend` serving a request in the goroutine `handler conn`: none when
the request is rejected, those of `room.Broadcast(encryptedMessage)` otherwise. -/
def handleSend.accesses (cs : ChatServer) (r : Request) (conn : Nat) : List Access :=
  if r.Method ≠ "POST" then []
  else if r.FormValue "room_id" = "" then []
  else if r.FormValue "message" = "" then []
  else Room.broadcastAccesses (.handler conn) (cs.GetRoom (r.FormValue "room_id")).1

/-- Two accesses to the same map by different goroutines, one of them a write. -/
def Access.Conflicts (a b : Access) : Prop :=
  a.room = b.room ∧ a.who ≠ b.who ∧ (a.write = true ∨ b.write = true)

/-! ## The secret -/

theorem generateRoomSecret_data (roomID : String) :
    ∃ c cs, (generateRoomSecret roomID).data = c :: cs := by
  simp [generateRoomSecret, hex.EncodeToString, sha256.Sum, sha256.wordBytes]

theorem generateRoomSecret_ne_empty (roomID : String) : generateRoomSecret roomID ≠ "" := by
  obtain ⟨c, cs, h⟩ := generateRoomSecret_data roomID
  intro h0
  rw [h0] at h
  exact List.noConfusion h

theorem generateRoomSecret_length (roomID : String) : (generateRoomSecret roomID).length = 64 := by
  simp [generateRoomSecret, hex.EncodeToString, sha256.Sum, sha256.wordBytes, String.length]

/-! ## The registry -/

namespace ChatServer

theorem deref_lt {cs : ChatServer} {p : RoomPtr} {room : Room} (h : cs.deref p = some room) :
    p < cs.heap.length := by
  unfold deref at h
  exact (List.getElem?_eq_some_iff.mp h).1

theorem existing_of_sound {cs : ChatServer} (hs : cs.Sound) {k : String} {p : RoomPtr}
    (h : cs.Rooms.lookup k = some p) : cs.existing k = some p := by
  obtain ⟨_, room, hd, _, hsec⟩ := hs k p h
  simp [existing, h, hd, hsec, generateRoomSecret_ne_empty]

theorem existing_lookup {cs : ChatServer} {k : String} {p : RoomPtr}
    (h : cs.existing k = some p) : cs.Rooms.lookup k = some p := by
  unfold existing at h
  split at h
  · exact absurd h (by simp)
  · rename_i q hq
    split at h
    · exact absurd h (by simp)
    · split at h
      · rw [hq]; exact h
      · exact absurd h (by simp)

theorem existing_none_of_lookup {cs : ChatServer} {k : String}
    (h : cs.Rooms.lookup k = none) : cs.existing k = none := by
  simp [existing, h]

theorem GetRoom_hit {cs : ChatServer} {k : String} {p : RoomPtr} (h : cs.existing k = some p) :
    cs.GetRoom k = (p, cs) := by
  simp [GetRoom, h]

theorem GetRoom_miss {cs : ChatServer} {k : String} (h : cs.existing k = none) :
    cs.GetRoom k =
      (cs.heap.length,
        { Rooms := cs.Rooms.insert k cs.heap.length,
          heap := cs.heap ++ [{ ID := k, Clients := ∅, Secret := generateRoomSecret k }],
          actors := cs.actors ++ [cs.heap.length] }) := by
  simp [GetRoom, h]

theorem deref_append_new (cs : ChatServer) (room : Room) (rooms : AList (fun _ : String => RoomPtr))
    (actors : List RoomPtr) :
    deref { Rooms := rooms, heap := cs.heap ++ [room], actors := actors } cs.heap.length
      = some room := by
  simp [deref]

theorem deref_append_old {cs : ChatServer} {q : RoomPtr} {r0 : Room} (room : Room)
    (rooms : AList (fun _ : String => RoomPtr)) (actors : List RoomPtr)
    (h : cs.deref q = some r0) :
    deref { Rooms := rooms, heap := cs.heap ++ [room], actors := actors } q = some r0 := by
  have hlt := deref_lt h
  unfold deref at h ⊢
  simp only
  rw [List.getElem?_append_left hlt]
  exact h

/-- After a call that found no usable entry the identifier is registered with a usable one. -/
theorem existing_after_miss {cs : ChatServer} {k : String} (h : cs.existing k = none) :
    (cs.GetRoom k).2.existing k = some (cs.GetRoom k).1 := by
  rw [GetRoom_miss h]
  simp [existing, AList.lookup_insert, deref, generateRoomSecret_ne_empty]

theorem existing_after_GetRoom (cs : ChatServer) (k : String) :
    (cs.GetRoom k).2.existing k = some (cs.GetRoom k).1 := by
  cases hc : cs.existing k with
  | some p => rw [GetRoom_hit hc]; exact hc
  | none => exact existing_after_miss hc

theorem lookup_GetRoom_ne (cs : ChatServer) {k r : String} (h : k ≠ r) :
    (cs.GetRoom r).2.Rooms.lookup k = cs.Rooms.lookup k := by
  cases hc : cs.existing r with
  | some p => rw [GetRoom_hit hc]
  | none => rw [GetRoom_miss hc]; exact AList.lookup_insert_ne h

theorem Sound_GetRoom {cs : ChatServer} (hs : cs.Sound) (roomID : String) :
    (cs.GetRoom roomID).2.Sound := by
  cases hex : cs.existing roomID with
  | some p => rw [GetRoom_hit hex]; exact hs
  | none =>
    rw [GetRoom_miss hex]
    intro k p hk
    by_cases hkr : k = roomID
    · subst hkr
      simp only [AList.lookup_insert, Option.some.injEq] at hk
      subst hk
      refine ⟨by simp, _, deref_append_new cs _ _ _, rfl, rfl⟩
    · simp only [AList.lookup_insert_ne hkr] at hk
      obtain ⟨hp, room, hd, hid, hsec⟩ := hs k p hk
      exact ⟨by simp [hp], room, deref_append_old _ _ _ hd, hid, hsec⟩

theorem deref_runActor (cs : ChatServer) (p : RoomPtr) (ev : RunEvent) (q : RoomPtr) :
    (cs.runActor p ev).deref q = cs.deref q ∨
      ∃ room, cs.deref q = some room ∧ (cs.runActor p ev).deref q = some (room.step ev) := by
  unfold runActor
  split
  · cases hd : cs.deref p with
    | none => left; rfl
    | some room =>
      by_cases hqp : p = q
      · subst hqp
        right
        refine ⟨room, hd, ?_⟩
        have hlt := deref_lt hd
        simp [deref, List.getElem?_set_self, hlt]
      · left
        simp [deref, List.getElem?_set_ne hqp]
  · left; rfl

theorem Rooms_runActor (cs : ChatServer) (p : RoomPtr) (ev : RunEvent) :
    (cs.runActor p ev).Rooms = cs.Rooms := by
  unfold runActor
  split
  · split <;> rfl
  · rfl

theorem actors_runActor (cs : ChatServer) (p : RoomPtr) (ev : RunEvent) :
    (cs.runActor p ev).actors = cs.actors := by
  unfold runActor
  split
  · split <;> rfl
  · rfl

end ChatServer

theorem Room.step_ID (r : Room) (ev : RunEvent) : (r.step ev).ID = r.ID := by
  cases ev <;> rfl

theorem Room.step_Secret (r : Room) (ev : RunEvent) : (r.step ev).Secret = r.Secret := by
  cases ev <;> rfl

theorem ChatServer.Sound_runActor {cs : ChatServer} (hs : cs.Sound) (p : RoomPtr)
    (ev : RunEvent) : (cs.runActor p ev).Sound := by
  intro k q hk
  rw [ChatServer.Rooms_runActor] at hk
  obtain ⟨hq, room, hd, hid, hsec⟩ := hs k q hk
  rw [ChatServer.actors_runActor]
  refine ⟨hq, ?_⟩
  rcases ChatServer.deref_runActor cs p ev q with h | ⟨room1, h1, h2⟩
  · exact ⟨room, by rw [h, hd], hid, hsec⟩
  · rw [hd] at h1
    cases h1
    exact ⟨_, h2, by rw [Room.step_ID, hid], by rw [Room.step_Secret, hsec]⟩

theorem Reachable.sound {cs : ChatServer} (h : Reachable cs) : cs.Sound := by
  induction h with
  | init => intro k p hk; simp [NewChatServer, AList.lookup_empty] at hk
  | getRoom cs roomID _ ih => exact ChatServer.Sound_GetRoom ih roomID
  | run cs p ev _ ih => exact ChatServer.Sound_runActor ih p ev

/-- The pointer `GetRoom` returns refers to an allocated room with the derived secret, when the
registry is sound. -/
theorem ChatServer.GetRoom_deref {cs : ChatServer} (hs : cs.Sound) (roomID : String) :
    ∃ room, (cs.GetRoom roomID).2.deref (cs.GetRoom roomID).1 = some room ∧
      room.ID = roomID ∧ room.Secret = generateRoomSecret roomID := by
  cases hex : cs.existing roomID with
  | some p =>
    rw [ChatServer.GetRoom_hit hex]
    exact (hs roomID p (ChatServer.existing_lookup hex)).2
  | none =>
    rw [ChatServer.GetRoom_miss hex]
    exact ⟨_, ChatServer.deref_append_new cs _ _ _, rfl, rfl⟩

theorem alphaServer_reachable : Reachable alphaServer :=
  Reachable.run _ _ _ (Reachable.getRoom _ _ Reachable.init)

/-! ## Claims on the registry -/

/-- C1: in every server state reached from `NewChatServer` (by `GetRoom` calls, and also by
iterations of the room actors), a second `GetRoom(r)` right after a first one takes the
"already exists" branch and returns the same pointer; it allocates no `Room`, starts no
actor and leaves the map unchanged; the room carries the derived, non-empty secret; and an
identifier that is registered is never given a new room. -/
theorem GetRoom_twice_same_room (cs : ChatServer) (h : Reachable cs) (r : String) :
    (cs.GetRoom r).2.existing r = some (cs.GetRoom r).1 ∧
    ((cs.GetRoom r).2.GetRoom r).1 = (cs.GetRoom r).1 ∧
    ((cs.GetRoom r).2.GetRoom r).2.heap = (cs.GetRoom r).2.heap ∧
    ((cs.GetRoom r).2.GetRoom r).2.actors = (cs.GetRoom r).2.actors ∧
    ((cs.GetRoom r).2.GetRoom r).2.Rooms = (cs.GetRoom r).2.Rooms ∧
    (∃ room, (cs.GetRoom r).2.deref (cs.GetRoom r).1 = some room ∧
      ((cs.GetRoom r).2.GetRoom r).2.deref ((cs.GetRoom r).2.GetRoom r).1 = some room ∧
      room.Secret = generateRoomSecret r ∧ room.Secret ≠ "") ∧
    (∀ p, cs.Rooms.lookup r = some p → cs.GetRoom r = (p, cs)) := by
  have hs := h.sound
  have hex := ChatServer.existing_after_GetRoom cs r
  have h2 := ChatServer.GetRoom_hit hex
  obtain ⟨room, hd, _, hsec⟩ := ChatServer.GetRoom_deref hs r
  refine ⟨hex, by rw [h2], by rw [h2], by rw [h2], by rw [h2], ⟨room, hd, ?_, hsec, ?_⟩, ?_⟩
  · rw [h2]; exact hd
  · rw [hsec]; exact generateRoomSecret_ne_empty r
  · intro p hp
    exact ChatServer.GetRoom_hit (ChatServer.existing_of_sound hs hp)

theorem GetRoom_twice_same_room_witness :
    Reachable alphaServer ∧
      ((alphaServer.GetRoom "alpha").2.GetRoom "alpha").1 = (alphaServer.GetRoom "alpha").1 ∧
      ((alphaServer.GetRoom "beta").2.GetRoom "beta").2.heap
        = (alphaServer.GetRoom "beta").2.heap :=
  ⟨alphaServer_reachable,
   (GetRoom_twice_same_room alphaServer alphaServer_reachable "alpha").2.1,
   (GetRoom_twice_same_room alphaServer alphaServer_reachable "beta").2.2.1⟩

/-- C2: for every server state and every identifier `r` without an entry in the map,
`GetRoom(r)` returns a newly allocated room with `ID = r`, no clients and the secret
`generateRoomSecret(r)`; afterwards the map sends `r` to that room, the entry of every other
identifier is as before and every room allocated before is untouched. -/
theorem GetRoom_fresh (cs : ChatServer) (r : String) (h : cs.Rooms.lookup r = none) :
    cs.deref (cs.GetRoom r).1 = none ∧
    (cs.GetRoom r).2.deref (cs.GetRoom r).1
      = some { ID := r, Clients := ∅, Secret := generateRoomSecret r } ∧
    (cs.GetRoom r).2.Rooms.lookup r = some (cs.GetRoom r).1 ∧
    (∀ k, k ≠ r → (cs.GetRoom r).2.Rooms.lookup k = cs.Rooms.lookup k) ∧
    (∀ q room, cs.deref q = some room → (cs.GetRoom r).2.deref q = some room) ∧
    (cs.GetRoom r).2.actors = cs.actors ++ [(cs.GetRoom r).1] := by
  have hex := ChatServer.existing_none_of_lookup h
  rw [ChatServer.GetRoom_miss hex]
  refine ⟨by simp [ChatServer.deref], ChatServer.deref_append_new cs _ _ _,
    by simp [AList.lookup_insert], ?_, ?_, rfl⟩
  · intro k hk
    simp [AList.lookup_insert_ne hk]
  · intro q room hq
    exact ChatServer.deref_append_old _ _ _ hq

theorem GetRoom_fresh_witness :
    alphaServer.Rooms.lookup "beta" = none ∧
      (alphaServer.GetRoom "beta").2.deref (alphaServer.GetRoom "beta").1
        = some { ID := "beta", Clients := ∅, Secret := generateRoomSecret "beta" } :=
  have h : alphaServer.Rooms.lookup "beta" = none := by decide
  ⟨h, (GetRoom_fresh alphaServer "beta" h).2.1⟩

/-- C3: in every reachable server state every room stored under a key `k` has `ID = k` and
`Secret = generateRoomSecret(k)`; hence the room `GetRoom(roomID)` returns, whose `Secret`
`handleSend` encrypts with, carries `generateRoomSecret(roomID)`, which is the secret
`handleChat` computes for decryption. -/
theorem secret_matches_key (cs : ChatServer) (h : Reachable cs) :
    (∀ k p, cs.Rooms.lookup k = some p →
      ∃ room, cs.deref p = some room ∧ room.ID = k ∧ room.Secret = generateRoomSecret k) ∧
    (∀ roomID, ∃ room, (cs.GetRoom roomID).2.deref (cs.GetRoom roomID).1 = some room ∧
      room.ID = roomID ∧ room.Secret = generateRoomSecret roomID) ∧
    (∀ (req : Request) (ch : Chan) (a : Attached), handleChat.attach cs req ch = .ok a →
      a.secret = generateRoomSecret (req.Query "room_id") ∧
      a.room = (cs.GetRoom (req.Query "room_id")).1 ∧
      ∃ room, a.cs.deref a.room = some room ∧ room.Secret = a.secret) := by
  have hs := h.sound
  refine ⟨fun k p hk => (hs k p hk).2, fun roomID => ChatServer.GetRoom_deref hs roomID, ?_⟩
  intro req ch a ha
  unfold handleChat.attach at ha
  split at ha
  · cases ha
  · split at ha
    · cases ha
    · simp only [Except.ok.injEq] at ha
      subst ha
      refine ⟨rfl, rfl, ?_⟩
      obtain ⟨room, hd, _, hsec⟩ := ChatServer.GetRoom_deref hs (req.Query "room_id")
      rcases ChatServer.deref_runActor (cs.GetRoom (req.Query "room_id")).2
          (cs.GetRoom (req.Query "room_id")).1
          (.AddClient ⟨req.Query "client_id", ch⟩) (cs.GetRoom (req.Query "room_id")).1
        with h1 | ⟨room1, h1, h2⟩
      · exact ⟨room, by rw [h1, hd], hsec⟩
      · rw [hd] at h1
        cases h1
        exact ⟨_, h2, by rw [Room.step_Secret, hsec]⟩

theorem secret_matches_key_witness :
    Reachable alphaServer ∧
      ∃ room, (alphaServer.GetRoom "alpha").2.deref (alphaServer.GetRoom "alpha").1 = some room ∧
        room.ID = "alpha" ∧ room.Secret = generateRoomSecret "alpha" :=
  ⟨alphaServer_reachable, (secret_matches_key alphaServer alphaServer_reachable).2.1 "alpha"⟩

/-! ## Distinct identifiers -/

theorem sha256.compress_bounded (s : sha256.State) (block : List Nat) :
    sha256.Bounded (sha256.compress s block) := by
  have h : ∀ n : Nat, n % sha256.wordMod < 2 ^ 32 := fun n => Nat.mod_lt _ (by decide)
  exact ⟨h _, h _, h _, h _, h _, h _, h _, h _⟩

theorem sha256.blocks_bounded : ∀ (n : Nat) (s : sha256.State) (ws : List Nat),
    sha256.Bounded s → sha256.Bounded (sha256.blocks n s ws)
  | 0, _, _, hs => hs
  | n + 1, s, ws, _ =>
      sha256.blocks_bounded n _ _ (sha256.compress_bounded s (ws.take 16))

theorem sha256.digest_bounded (msg : List Nat) : sha256.Bounded (sha256.digest msg) :=
  sha256.blocks_bounded _ _ _ (by unfold sha256.Bounded sha256.init; decide)

theorem sha256.State.ext_fields {s t : sha256.State}
    (h : s.a = t.a ∧ s.b = t.b ∧ s.c = t.c ∧ s.d = t.d ∧ s.e = t.e ∧ s.f = t.f ∧ s.g = t.g ∧
      s.h = t.h) : s = t := by
  cases s
  cases t
  simp only [sha256.State.mk.injEq]
  exact h

theorem spell_injective : Function.Injective spell := by
  intro v w h
  have h0 : v.map (fun b => if b then 'a' else 'b') = w.map (fun b => if b then 'a' else 'b') :=
    String.ext_iff.mp h
  refine List.map_injective_iff.mpr ?_ h0
  intro x y hxy
  cases x <;> cases y <;> first | rfl | exact absurd hxy (by decide)

theorem spell_length (bits : List Bool) : (spell bits).length = bits.length := by
  show (bits.map _).length = bits.length
  exact List.length_map _ _

/-- Two different identifiers of 257 bytes with the same secret: there are `2 ^ 257`
identifiers spelled with `a` and `b`, and `2 ^ 256` chaining values. -/
theorem generateRoomSecret_collision :
    ∃ r1 r2 : String, r1 ≠ r2 ∧ r1.length = 257 ∧ r2.length = 257 ∧
      generateRoomSecret r1 = generateRoomSecret r2 := by
  let code : Mathlib.Vector Bool 257 → Fin (2 ^ 32) × Fin (2 ^ 32) × Fin (2 ^ 32) × Fin (2 ^ 32) ×
      Fin (2 ^ 32) × Fin (2 ^ 32) × Fin (2 ^ 32) × Fin (2 ^ 32) := fun v =>
    have hb := sha256.digest_bounded (bytes (spell v.1))
    (⟨_, hb.1⟩, ⟨_, hb.2.1⟩, ⟨_, hb.2.2.1⟩, ⟨_, hb.2.2.2.1⟩, ⟨_, hb.2.2.2.2.1⟩,
      ⟨_, hb.2.2.2.2.2.1⟩, ⟨_, hb.2.2.2.2.2.2.1⟩, ⟨_, hb.2.2.2.2.2.2.2⟩)
  have hcard : Fintype.card (Fin (2 ^ 32) × Fin (2 ^ 32) × Fin (2 ^ 32) × Fin (2 ^ 32) ×
      Fin (2 ^ 32) × Fin (2 ^ 32) × Fin (2 ^ 32) × Fin (2 ^ 32))
      < Fintype.card (Mathlib.Vector Bool 257) := by
    simp only [Fintype.card_prod, Fintype.card_fin, card_vector, Fintype.card_bool]
    norm_num
  obtain ⟨v, w, hne, heq⟩ := Fintype.exists_ne_map_eq_of_card_lt code hcard
  refine ⟨spell v.1, spell w.1, fun h => hne (Subtype.ext (spell_injective h)),
    (spell_length v.1).trans v.2, (spell_length w.1).trans w.2, ?_⟩
  have hd : sha256.digest (bytes (spell v.1)) = sha256.digest (bytes (spell w.1)) := by
    simp only [code, Prod.mk.injEq] at heq
    obtain ⟨h1, h2, h3, h4, h5, h6, h7, h8⟩ := heq
    exact sha256.State.ext_fields
      ⟨congrArg Fin.val h1, congrArg Fin.val h2, congrArg Fin.val h3, congrArg Fin.val h4,
        congrArg Fin.val h5, congrArg Fin.val h6, congrArg Fin.val h7, congrArg Fin.val h8⟩
  unfold generateRoomSecret sha256.Sum
  rw [hd]

theorem hex.digit_injective :
    ∀ i < 16, ∀ j < 16, hex.digit i = hex.digit j → i = j := by decide

theorem hex.digit_mod (n : Nat) : hex.digit (n % 16) = hex.digit n := by
  unfold hex.digit
  rw [Nat.mod_mod]

theorem hex.byte_injective {b c : Nat} (hb : b < 256) (hc : c < 256)
    (h1 : hex.digit (b / 16) = hex.digit (c / 16)) (h2 : hex.digit b = hex.digit c) : b = c := by
  have e1 := hex.digit_injective (b / 16) (by omega) (c / 16) (by omega) h1
  rw [← hex.digit_mod b, ← hex.digit_mod c] at h2
  have e2 := hex.digit_injective (b % 16) (by omega) (c % 16) (by omega) h2
  omega

theorem hex.EncodeToString_injective : ∀ l1 l2 : List Nat,
    (∀ b ∈ l1, b < 256) → (∀ b ∈ l2, b < 256) →
    hex.EncodeToString l1 = hex.EncodeToString l2 → l1 = l2
  | [], [], _, _, _ => rfl
  | [], c :: l2, _, _, h => by
      have h0 := String.ext_iff.mp h
      simp [hex.EncodeToString] at h0
  | b :: l1, [], _, _, h => by
      have h0 := String.ext_iff.mp h
      simp [hex.EncodeToString] at h0
  | b :: l1, c :: l2, hb, hc, h => by
      have h0 := String.ext_iff.mp h
      simp only [hex.EncodeToString, List.flatMap_cons, List.cons_append, List.nil_append,
        List.cons.injEq] at h0
      obtain ⟨h1, h2, h3⟩ := h0
      have hbc := hex.byte_injective (hb b (by simp)) (hc c (by simp)) h1 h2
      have ih := hex.EncodeToString_injective l1 l2
        (fun x hx => hb x (by simp [hx])) (fun x hx => hc x (by simp [hx]))
        (String.ext_iff.mpr h3)
      rw [hbc, ih]

theorem sha256.Sum_lt (msg : List Nat) : ∀ b ∈ sha256.Sum msg, b < 256 := by
  intro b hb
  simp only [sha256.Sum, sha256.wordBytes, List.cons_append, List.nil_append, List.mem_cons,
    List.mem_singleton, List.not_mem_nil, or_false] at hb
  rcases hb with h | h | h | h | h | h | h | h | h | h | h | h | h | h | h | h |
    h | h | h | h | h | h | h | h | h | h | h | h | h | h | h | h <;>
  · rw [h]; exact Nat.mod_lt _ (by decide)

/-- The secrets of two identifiers agree exactly when their SHA-256 digests agree. -/
theorem generateRoomSecret_eq_iff (r1 r2 : String) :
    generateRoomSecret r1 = generateRoomSecret r2 ↔
      sha256.Sum (bytes r1) = sha256.Sum (bytes r2) := by
  constructor
  · exact hex.EncodeToString_injective _ _ (sha256.Sum_lt _) (sha256.Sum_lt _)
  · intro h
    unfold generateRoomSecret
    rw [h]

/-- The two rooms obtained by resolving `r1` and then `r2` in a sound registry. -/
theorem ChatServer.GetRoom_pair {cs : ChatServer} (hs : cs.Sound) {r1 r2 : String}
    (hne : r1 ≠ r2) :
    ∃ room1 room2,
      ((cs.GetRoom r1).2.GetRoom r2).2.deref (cs.GetRoom r1).1 = some room1 ∧
      ((cs.GetRoom r1).2.GetRoom r2).2.deref ((cs.GetRoom r1).2.GetRoom r2).1 = some room2 ∧
      room1.ID = r1 ∧ room2.ID = r2 ∧
      room1.Secret = generateRoomSecret r1 ∧ room2.Secret = generateRoomSecret r2 := by
  have hs1 := ChatServer.Sound_GetRoom hs r1
  have hs2 := ChatServer.Sound_GetRoom hs1 r2
  have hl1 : ((cs.GetRoom r1).2.GetRoom r2).2.Rooms.lookup r1 = some (cs.GetRoom r1).1 := by
    rw [ChatServer.lookup_GetRoom_ne _ hne]
    exact ChatServer.existing_lookup (ChatServer.existing_after_GetRoom cs r1)
  have hl2 := ChatServer.existing_lookup (ChatServer.existing_after_GetRoom (cs.GetRoom r1).2 r2)
  obtain ⟨_, room1, hd1, hid1, hsec1⟩ := hs2 _ _ hl1
  obtain ⟨_, room2, hd2, hid2, hsec2⟩ := hs2 _ _ hl2
  exact ⟨room1, room2, hd1, hd2, hid1, hid2, hsec1, hsec2⟩

/-- C4, as stated, fails: it is not the case that resolving two distinct identifiers always
gives rooms with distinct secrets. -/
theorem distinct_secrets_refuted :
    ¬ ∀ cs : ChatServer, Reachable cs → ∀ r1 r2 : String, r1 ≠ r2 →
      ∀ room1 room2 : Room,
        ((cs.GetRoom r1).2.GetRoom r2).2.deref (cs.GetRoom r1).1 = some room1 →
        ((cs.GetRoom r1).2.GetRoom r2).2.deref ((cs.GetRoom r1).2.GetRoom r2).1 = some room2 →
        room1.Secret ≠ room2.Secret := by
  intro hall
  obtain ⟨r1, r2, hne, _, _, hcol⟩ := generateRoomSecret_collision
  obtain ⟨room1, room2, hd1, hd2, _, _, hsec1, hsec2⟩ :=
    ChatServer.GetRoom_pair (Reachable.sound Reachable.init) hne
  exact hall NewChatServer Reachable.init r1 r2 hne room1 room2 hd1 hd2
    (by rw [hsec1, hsec2, hcol])

/-- C4, amended: resolving two distinct identifiers `r1 ≠ r2` in a reachable server state
gives two distinct `Room` objects, with `ID` `r1` and `r2`, whose secrets are
`generateRoomSecret(r1)` and `generateRoomSecret(r2)`; the two secrets differ exactly when
the SHA-256 digests of the two identifiers differ. -/
theorem distinct_identifiers_distinct_rooms (cs : ChatServer) (h : Reachable cs)
    (r1 r2 : String) (hne : r1 ≠ r2) :
    (cs.GetRoom r1).1 ≠ ((cs.GetRoom r1).2.GetRoom r2).1 ∧
    ∃ room1 room2,
      ((cs.GetRoom r1).2.GetRoom r2).2.deref (cs.GetRoom r1).1 = some room1 ∧
      ((cs.GetRoom r1).2.GetRoom r2).2.deref ((cs.GetRoom r1).2.GetRoom r2).1 = some room2 ∧
      room1.ID = r1 ∧ room2.ID = r2 ∧ room1 ≠ room2 ∧
      room1.Secret = generateRoomSecret r1 ∧ room2.Secret = generateRoomSecret r2 ∧
      (room1.Secret ≠ room2.Secret ↔ sha256.Sum (bytes r1) ≠ sha256.Sum (bytes r2)) := by
  obtain ⟨room1, room2, hd1, hd2, hid1, hid2, hsec1, hsec2⟩ :=
    ChatServer.GetRoom_pair h.sound hne
  have hrooms : room1 ≠ room2 := by
    intro he
    rw [he, hid2] at hid1
    exact hne hid1.symm
  refine ⟨?_, room1, room2, hd1, hd2, hid1, hid2, hrooms, hsec1, hsec2, ?_⟩
  · intro hp
    rw [hp, hd2] at hd1
    exact hrooms (Option.some.inj hd1).symm
  · rw [hsec1, hsec2]
    exact not_congr (generateRoomSecret_eq_iff r1 r2)

theorem distinct_identifiers_distinct_rooms_witness :
    Reachable alphaServer ∧ "alpha" ≠ "beta" ∧
      (alphaServer.GetRoom "alpha").1 ≠ ((alphaServer.GetRoom "alpha").2.GetRoom "beta").1 ∧
      generateRoomSecret "alpha" ≠ generateRoomSecret "beta" :=
  have hne : "alpha" ≠ "beta" := by decide
  ⟨alphaServer_reachable, hne,
   (distinct_identifiers_distinct_rooms alphaServer alphaServer_reachable "alpha" "beta" hne).1,
   by decide⟩

/-! ## Sends on unbuffered channels -/

theorem sendAll_nil (ready : Readers) (fuel now : Nat) (done : List Send) :
    sendAll ready fuel now [] done = ⟨done, [], now⟩ := by
  cases fuel <;> rfl

theorem sendAll_succ (ready : Readers) (fuel now : Nat) (s : Send) (rest done : List Send) :
    sendAll ready (fuel + 1) now (s :: rest) done =
      if ready now s.ch then sendAll ready fuel (now + 1) rest (done ++ [s])
      else sendAll ready fuel (now + 1) (s :: rest) done := rfl

/-- Nothing is lost or invented: the sends completed followed by those pending are the sends
completed before followed by the statements to run. -/
theorem sendAll_split (ready : Readers) : ∀ (fuel now : Nat) (pending done : List Send),
    (sendAll ready fuel now pending done).delivered ++ (sendAll ready fuel now pending done).pending
      = done ++ pending
  | fuel, now, [], done => by rw [sendAll_nil]
  | 0, now, s :: rest, done => rfl
  | fuel + 1, now, s :: rest, done => by
      rw [sendAll_succ]
      split
      · rw [sendAll_split ready fuel (now + 1) rest (done ++ [s])]
        simp
      · exact sendAll_split ready fuel (now + 1) (s :: rest) done

/-- A send completes only at a tick at which its channel has a reader. -/
theorem sendAll_delivered_ready (ready : Readers) : ∀ (fuel now : Nat) (pending done : List Send),
    ∀ x ∈ (sendAll ready fuel now pending done).delivered,
      x ∈ done ∨ ∃ t, now ≤ t ∧ ready t x.ch = true
  | fuel, now, [], done => by
      rw [sendAll_nil]
      intro x hx
      exact Or.inl hx
  | 0, now, s :: rest, done => fun x hx => Or.inl hx
  | fuel + 1, now, s :: rest, done => by
      rw [sendAll_succ]
      intro x hx
      split at hx
      · rename_i hr
        rcases sendAll_delivered_ready ready fuel (now + 1) rest (done ++ [s]) x hx with h | h
        · rcases List.mem_append.mp h with h1 | h1
          · exact Or.inl h1
          · rw [List.mem_singleton.mp h1]
            exact Or.inr ⟨now, le_refl _, hr⟩
        · obtain ⟨t, ht, hrt⟩ := h
          exact Or.inr ⟨t, by omega, hrt⟩
      · rcases sendAll_delivered_ready ready fuel (now + 1) (s :: rest) done x hx with h | h
        · exact Or.inl h
        · obtain ⟨t, ht, hrt⟩ := h
          exact Or.inr ⟨t, by omega, hrt⟩

/-- The head statement completes once its reader is ready, and the rest follows. -/
theorem sendAll_head (ready : Readers) (s : Send) (rest : List Send)
    (hrest : ∀ now done, ∃ fuel t, sendAll ready fuel now rest done = ⟨done ++ rest, [], t⟩) :
    ∀ (d now : Nat) (done : List Send), ready (now + d) s.ch = true →
      ∃ fuel t, sendAll ready fuel now (s :: rest) done = ⟨done ++ s :: rest, [], t⟩
  | 0, now, done, h => by
      have h0 : ready now s.ch = true := h
      obtain ⟨fuel, t, hf⟩ := hrest (now + 1) (done ++ [s])
      refine ⟨fuel + 1, t, ?_⟩
      rw [sendAll_succ, if_pos h0, hf]
      simp
  | d + 1, now, done, h => by
      by_cases hr : ready now s.ch = true
      · obtain ⟨fuel, t, hf⟩ := hrest (now + 1) (done ++ [s])
        refine ⟨fuel + 1, t, ?_⟩
        rw [sendAll_succ, if_pos hr, hf]
        simp
      · have h1 : ready (now + 1 + d) s.ch = true := by
          rw [show now + 1 + d = now + (d + 1) by omega]
          exact h
        obtain ⟨fuel, t, hf⟩ := sendAll_head ready s rest hrest d (now + 1) done h1
        refine ⟨fuel + 1, t, ?_⟩
        rw [sendAll_succ, if_neg hr, hf]

/-- When the reader of every channel keeps coming back, all statements complete. -/
theorem sendAll_complete (ready : Readers) : ∀ (pending : List Send),
    (∀ s ∈ pending, ∀ t, ∃ t1, t ≤ t1 ∧ ready t1 s.ch = true) →
    ∀ now done, ∃ fuel t, sendAll ready fuel now pending done = ⟨done ++ pending, [], t⟩
  | [], _, now, done => ⟨0, now, by rw [sendAll_nil]; simp⟩
  | s :: rest, h, now, done => by
      have hrest := sendAll_complete ready rest (fun x hx => h x (List.mem_cons_of_mem _ hx))
      obtain ⟨t1, ht1, hr⟩ := h s (List.mem_cons_self _ _) now
      have hr1 : ready (now + (t1 - now)) s.ch = true := by
        rw [show now + (t1 - now) = t1 by omega]
        exact hr
      exact sendAll_head ready s rest hrest (t1 - now) now done hr1

/-- A statement whose channel never has a reader stays pending, whatever the fuel. -/
theorem sendAll_stuck (ready : Readers) (fuel now : Nat) (pending : List Send) (s : Send)
    (hs : s ∈ pending) (hnever : ∀ t, ready t s.ch = false) :
    s ∈ (sendAll ready fuel now pending []).pending ∧
      s ∉ (sendAll ready fuel now pending []).delivered := by
  have hnot : s ∉ (sendAll ready fuel now pending []).delivered := by
    intro hd
    rcases sendAll_delivered_ready ready fuel now pending [] s hd with h | ⟨t, _, ht⟩
    · exact absurd h (List.not_mem_nil _)
    · rw [hnever t] at ht
      exact absurd ht (by decide)
  have hsplit := sendAll_split ready fuel now pending []
  rw [List.nil_append] at hsplit
  rw [← hsplit] at hs
  rcases List.mem_append.mp hs with h | h
  · exact absurd h hnot
  · exact ⟨h, hnot⟩

/-- The sends completed are an initial part of the statements, and stop before a statement
whose channel never has a reader. -/
theorem sendAll_prefix (ready : Readers) (fuel now : Nat) (pre rest : List Send) (s : Send)
    (hnever : ∀ t, ready t s.ch = false) :
    (sendAll ready fuel now (pre ++ s :: rest) []).delivered <+: pre := by
  have hsplit := sendAll_split ready fuel now (pre ++ s :: rest) []
  rw [List.nil_append] at hsplit
  have hp : (sendAll ready fuel now (pre ++ s :: rest) []).delivered <+: pre ++ s :: rest :=
    ⟨_, hsplit⟩
  have hnot := (sendAll_stuck ready fuel now (pre ++ s :: rest) s (by simp) hnever).2
  rcases Nat.lt_or_ge pre.length (sendAll ready fuel now (pre ++ s :: rest) []).delivered.length
    with hlt | hge
  · exfalso
    apply hnot
    have hps : pre ++ [s] <+: pre ++ s :: rest := ⟨rest, by simp⟩
    have hle : (pre ++ [s]).length ≤
        (sendAll ready fuel now (pre ++ s :: rest) []).delivered.length := by
      simp only [List.length_append, List.length_singleton]
      omega
    have := List.prefix_of_prefix_length_le hps hp hle
    exact this.subset (by simp)
  · exact List.prefix_of_prefix_length_le hp (List.prefix_append _ _) hge

/-! ## The room actor and the broadcast -/

theorem Room.mem_sends {r : Room} {message : String} {s : Send} :
    s ∈ r.sends message ↔
      ∃ k c, r.Clients.lookup k = some c ∧ s = ⟨c.MessageChan, message⟩ := by
  unfold Room.sends
  rw [List.mem_map]
  constructor
  · rintro ⟨⟨k, c⟩, he, rfl⟩
    exact ⟨k, c, AList.mem_lookup_iff.mpr he, rfl⟩
  · rintro ⟨k, c, hl, rfl⟩
    exact ⟨⟨k, c⟩, AList.mem_lookup_iff.mp hl, rfl⟩

theorem Room.sends_complete {r : Room} {ready : Readers} (h : r.ReadersLive ready)
    (message : String) (now : Nat) :
    ∃ fuel t, sendAll ready fuel now (r.sends message) [] = ⟨r.sends message, [], t⟩ := by
  have := sendAll_complete ready (r.sends message) (by
    intro s hs t
    obtain ⟨k, c, hl, rfl⟩ := Room.mem_sends.mp hs
    exact h k c hl t) now []
  simpa using this

theorem Room.sends_nodup {r : Room} (h : r.DistinctChans) (message : String) :
    (r.sends message).Nodup := by
  unfold Room.sends
  refine List.Nodup.map_on ?_ r.Clients.nodupKeys.nodup
  rintro ⟨k1, c1⟩ h1 ⟨k2, c2⟩ h2 heq
  have hch : c1.MessageChan = c2.MessageChan := by
    injection heq
  have hk := h k1 k2 c1 c2 (AList.mem_lookup_iff.mpr h1) (AList.mem_lookup_iff.mpr h2) hch
  subst hk
  have := r.Clients.nodupKeys.eq_of_fst_eq h1 h2 rfl
  exact this

theorem Room.lookup_detach_ne (r : Room) {k clientID : String} {c : Client}
    (h : (r.step (.RemoveClient clientID)).Clients.lookup k = some c) :
    k ≠ clientID ∧ r.Clients.lookup k = some c := by
  have hk : k ≠ clientID := by
    intro he
    subst he
    simp [Room.step, AList.lookup_erase] at h
  refine ⟨hk, ?_⟩
  simpa [Room.step, AList.lookup_erase_ne hk] using h

theorem Room.mem_delivered_sends (r : Room) (message : String) (ready : Readers)
    (fuel now : Nat) {s : Send} (h : s ∈ (r.Broadcast message ready fuel now).2.delivered) :
    s ∈ r.sends message := by
  have hsplit := sendAll_split ready fuel now (r.sends message) []
  rw [List.nil_append] at hsplit
  rw [← hsplit]
  exact List.mem_append_left _ h

theorem stalledRoom_sends (message : String) :
    stalledRoom.sends message = [] ++ ⟨7, message⟩ :: [⟨1, message⟩] := rfl

theorem bobOnly_eve (t : Nat) : bobOnly t 7 = false := rfl

/-- C7: for every room and client `c`, `Run` leaves the same room after `Attach(c)`,
`Detach(c.ID)`, `Attach(c)` as after a single `Attach(c)`; an `Attach` of a client whose
identifier is already registered replaces the earlier registration: afterwards the
identifier is mapped to the client attached last, every other entry is as before, and `Run`
(a total function) raises no error. -/
theorem attach_detach_attach (r : Room) (c : Client) :
    r.Run [.AddClient c, .RemoveClient c.ID, .AddClient c] = r.Run [.AddClient c] ∧
    (∀ c0 : Client, c0.ID = c.ID →
      r.Run [.AddClient c0, .AddClient c] = r.Run [.AddClient c]) ∧
    (r.Run [.AddClient c]).Clients.lookup c.ID = some c ∧
    (∀ k, k ≠ c.ID → (r.Run [.AddClient c]).Clients.lookup k = r.Clients.lookup k) ∧
    (r.Run [.AddClient c]).ID = r.ID ∧ (r.Run [.AddClient c]).Secret = r.Secret := by
  refine ⟨?_, ?_, ?_, ?_, rfl, rfl⟩
  · simp only [Room.Run, List.foldl_cons, List.foldl_nil, Room.step]
    congr 1
    apply AList.ext
    simp only [AList.insert_entries, AList.erase]
    have h1 : List.kerase c.ID ((⟨c.ID, c⟩ : Sigma fun _ : String => Client) ::
        List.kerase c.ID r.Clients.entries) = List.kerase c.ID r.Clients.entries :=
      List.kerase_cons_eq rfl
    rw [h1, List.kerase_of_not_mem_keys (List.not_mem_keys_kerase c.ID r.Clients.nodupKeys)]
  · intro c0 h0
    simp only [Room.Run, List.foldl_cons, List.foldl_nil, Room.step]
    congr 1
    rw [h0]
    exact AList.insert_insert _
  · simp [Room.Run, Room.step, AList.lookup_insert]
  · intro k hk
    simp [Room.Run, Room.step, AList.lookup_insert_ne hk]

theorem attach_detach_attach_witness :
    (⟨"bob", 2⟩ : Client).ID = bob.ID ∧
      stalledRoom.Run [.AddClient ⟨"bob", 2⟩, .AddClient bob] = stalledRoom.Run [.AddClient bob] :=
  ⟨rfl, (attach_detach_attach stalledRoom bob).2.1 ⟨"bob", 2⟩ rfl⟩

/-- C6, as stated, fails: `bob` is registered in the room and a goroutine receives on his
channel at every tick, yet the broadcast never sends the message on his channel, because it
is blocked in the send to `eve`. -/
theorem Broadcast_skips_client :
    stalledRoom.Clients.lookup "bob" = some bob ∧ (bobOnly 0 bob.MessageChan = true) ∧
      ¬ ∃ fuel, (⟨bob.MessageChan, "m"⟩ : Send) ∈
        (stalledRoom.Broadcast "m" bobOnly fuel 0).2.delivered := by
  refine ⟨by decide, rfl, ?_⟩
  rintro ⟨fuel, hmem⟩
  have hp := sendAll_prefix bobOnly fuel 0 [] [⟨1, "m"⟩] ⟨7, "m"⟩ bobOnly_eve
  rw [← stalledRoom_sends "m"] at hp
  have hnil : (stalledRoom.Broadcast "m" bobOnly fuel 0).2.delivered = [] :=
    List.prefix_nil.mp hp
  rw [hnil] at hmem
  exact absurd hmem (List.not_mem_nil _)

/-- C6, amended: for every room and message, `Broadcast` leaves the room unchanged and, at
every moment, the sends completed followed by those pending are one send of the message per
registered client, in `range` order (so never a send on another channel or of another
text, and, the clients having channels of their own, never two on one channel); when the
reader of every registered client keeps receiving, `Broadcast` returns having sent the
message on the channel of every registered client; a client detached before the broadcast
gets nothing; on an empty client set `Broadcast` returns at once without a send. -/
theorem Broadcast_one_send_per_client (r : Room) (message : String) (ready : Readers)
    (now : Nat) :
    (∀ fuel, (r.Broadcast message ready fuel now).1 = r ∧
      (r.Broadcast message ready fuel now).2.delivered ++
        (r.Broadcast message ready fuel now).2.pending = r.sends message) ∧
    (r.sends message).length = r.Clients.entries.length ∧
    (∀ s, s ∈ r.sends message ↔
      ∃ k c, r.Clients.lookup k = some c ∧ s = ⟨c.MessageChan, message⟩) ∧
    (r.DistinctChans → (r.sends message).Nodup) ∧
    (r.ReadersLive ready →
      ∃ fuel t, r.Broadcast message ready fuel now = (r, ⟨r.sends message, [], t⟩)) ∧
    (∀ clientID fuel, ∀ s ∈
        ((r.step (.RemoveClient clientID)).Broadcast message ready fuel now).2.delivered,
      ∃ k c, k ≠ clientID ∧ r.Clients.lookup k = some c ∧ s = ⟨c.MessageChan, message⟩) ∧
    (∀ clientID c0, r.DistinctChans → r.Clients.lookup clientID = some c0 →
      ∀ fuel, ∀ s ∈
        ((r.step (.RemoveClient clientID)).Broadcast message ready fuel now).2.delivered,
      s.ch ≠ c0.MessageChan) ∧
    (r.Clients = ∅ → ∀ fuel, r.Broadcast message ready fuel now = (r, ⟨[], [], now⟩)) := by
  have hdet : ∀ clientID fuel, ∀ s ∈
        ((r.step (.RemoveClient clientID)).Broadcast message ready fuel now).2.delivered,
      ∃ k c, k ≠ clientID ∧ r.Clients.lookup k = some c ∧ s = ⟨c.MessageChan, message⟩ := by
    intro clientID fuel s hs
    obtain ⟨k, c, hl, hsc⟩ := Room.mem_sends.mp (Room.mem_delivered_sends _ _ _ _ _ hs)
    obtain ⟨hk, hl0⟩ := Room.lookup_detach_ne r hl
    exact ⟨k, c, hk, hl0, hsc⟩
  refine ⟨?_, ?_, fun s => Room.mem_sends, fun h => Room.sends_nodup h message, ?_, hdet, ?_, ?_⟩
  · intro fuel
    refine ⟨rfl, ?_⟩
    have hsplit := sendAll_split ready fuel now (r.sends message) []
    rw [List.nil_append] at hsplit
    exact hsplit
  · simp [Room.sends]
  · intro hlive
    obtain ⟨fuel, t, hf⟩ := Room.sends_complete hlive message now
    exact ⟨fuel, t, by simp only [Room.Broadcast, hf]⟩
  · intro clientID c0 hdist hl0 fuel s hs hch
    obtain ⟨k, c, hk, hl, hsc⟩ := hdet clientID fuel s hs
    rw [hsc] at hch
    exact hk (hdist k clientID c c0 hl hl0 hch)
  · intro hempty fuel
    have hs : r.sends message = [] := by simp [Room.sends, hempty]
    simp only [Room.Broadcast, hs, sendAll_nil]

theorem Broadcast_one_send_per_client_witness :
    (stalledRoom.step (.RemoveClient "eve")).ReadersLive bobOnly ∧
      ∃ fuel t, (stalledRoom.step (.RemoveClient "eve")).Broadcast "m" bobOnly fuel 0
        = (stalledRoom.step (.RemoveClient "eve"),
            ⟨(stalledRoom.step (.RemoveClient "eve")).sends "m", [], t⟩) :=
  have hlive : (stalledRoom.step (.RemoveClient "eve")).ReadersLive bobOnly := by
    intro k c hl t
    obtain ⟨hk, hl0⟩ := Room.lookup_detach_ne stalledRoom hl
    refine ⟨t, le_refl _, ?_⟩
    by_cases hb : k = "bob"
    · subst hb
      have : c = bob := by
        have h1 : stalledRoom.Clients.lookup "bob" = some bob := by decide
        rw [h1] at hl0
        exact (Option.some.inj hl0).symm
      rw [this]
      rfl
    · exfalso
      have : stalledRoom.Clients.lookup k = none := by
        show AList.lookup k (((∅ : ClientMap).insert "bob" bob).insert "eve" eve) = none
        rw [AList.lookup_insert_ne hk, AList.lookup_insert_ne hb, AList.lookup_empty]
      rw [this] at hl0
      exact absurd hl0 (by simp)
  ⟨hlive, (Broadcast_one_send_per_client _ "m" bobOnly 0).2.2.2.2.1 hlive⟩

/-- C10, as stated, fails: no reader is ready on the channel of `eve`, and the broadcast to
her room never returns. -/
theorem Broadcast_never_returns :
    stalledRoom.Clients.lookup "eve" = some eve ∧ bobOnly 0 eve.MessageChan = false ∧
      ¬ ∃ fuel, (stalledRoom.Broadcast "m" bobOnly fuel 0).2.pending = [] := by
  refine ⟨by decide, rfl, ?_⟩
  rintro ⟨fuel, hnil⟩
  have hst := (sendAll_stuck bobOnly fuel 0 (stalledRoom.sends "m") ⟨7, "m"⟩
    (by rw [stalledRoom_sends]; simp) bobOnly_eve).1
  have hnil0 : (sendAll bobOnly fuel 0 (stalledRoom.sends "m") []).pending = [] := hnil
  rw [hnil0] at hst
  exact absurd hst (List.not_mem_nil _)

theorem Room.Run_snoc (r : Room) (events : List RunEvent) (ev : RunEvent) :
    r.Run (events ++ [ev]) = (r.Run events).step ev := by
  simp [Room.Run, List.foldl_append]

theorem Room.lookup_attach (r : Room) (c : Client) :
    (r.step (.AddClient c)).Clients.lookup c.ID = some c := by
  simp [Room.step, AList.lookup_insert]

theorem Room.lookup_attach_ne (r : Room) (c : Client) {k : String} (hk : k ≠ c.ID) :
    (r.step (.AddClient c)).Clients.lookup k = r.Clients.lookup k := by
  simp [Room.step, AList.lookup_insert_ne hk]

theorem Room.lookup_detach (r : Room) (clientID : String) :
    (r.step (.RemoveClient clientID)).Clients.lookup clientID = none := by
  simp [Room.step, AList.lookup_erase]

theorem Room.lookup_detach_other (r : Room) (clientID : String) {k : String}
    (hk : k ≠ clientID) :
    (r.step (.RemoveClient clientID)).Clients.lookup k = r.Clients.lookup k := by
  simp [Room.step, AList.lookup_erase_ne hk]

/-- C10, amended: `Broadcast` sends to the registered clients one after the other, each send
waiting for a reader. When the reader of every registered client keeps coming back to its
receive, `Broadcast` returns having delivered to all of them; at a client whose channel never
has a reader it stays blocked for ever, having delivered only to clients that come before
that one in `range` order. The room is not changed by `Broadcast`, and however far the
broadcast has got, blocked or not, the `Run` actor processes every later event: an Attach
registers its client under its identifier, a Detach removes the entry of its identifier,
and either leaves every other entry as the events before it left it. -/
theorem Broadcast_waits_for_readers (r : Room) (message : String) (ready : Readers)
    (now : Nat) :
    (r.ReadersLive ready →
      ∃ fuel t, r.Broadcast message ready fuel now = (r, ⟨r.sends message, [], t⟩)) ∧
    (∀ k c, r.Clients.lookup k = some c → (∀ t, ready t c.MessageChan = false) →
      ∀ fuel, (r.Broadcast message ready fuel now).2.pending ≠ [] ∧
        (⟨c.MessageChan, message⟩ : Send) ∉ (r.Broadcast message ready fuel now).2.delivered) ∧
    (∀ pre rest s, r.sends message = pre ++ s :: rest → (∀ t, ready t s.ch = false) →
      ∀ fuel, (r.Broadcast message ready fuel now).2.delivered <+: pre) ∧
    (∀ fuel events, (r.Broadcast message ready fuel now).1.Run events = r.Run events) ∧
    (∀ fuel events c,
      ((r.Broadcast message ready fuel now).1.Run (events ++ [.AddClient c])).Clients.lookup c.ID
        = some c) ∧
    (∀ fuel events c k, k ≠ c.ID →
      ((r.Broadcast message ready fuel now).1.Run (events ++ [.AddClient c])).Clients.lookup k
        = ((r.Broadcast message ready fuel now).1.Run events).Clients.lookup k) ∧
    (∀ fuel events clientID,
      ((r.Broadcast message ready fuel now).1.Run
        (events ++ [.RemoveClient clientID])).Clients.lookup clientID = none) ∧
    (∀ fuel events clientID k, k ≠ clientID →
      ((r.Broadcast message ready fuel now).1.Run
        (events ++ [.RemoveClient clientID])).Clients.lookup k
        = ((r.Broadcast message ready fuel now).1.Run events).Clients.lookup k) ∧
    (∀ fuel, ((r.Broadcast message ready fuel now).1.Run []).Clients = r.Clients) := by
  refine ⟨?_, ?_, ?_, fun _ _ => rfl, ?_, ?_, ?_, ?_, fun _ => rfl⟩
  · intro hlive
    obtain ⟨fuel, t, hf⟩ := Room.sends_complete hlive message now
    exact ⟨fuel, t, by simp only [Room.Broadcast, hf]⟩
  · intro k c hl hnever fuel
    have hmem : (⟨c.MessageChan, message⟩ : Send) ∈ r.sends message :=
      Room.mem_sends.mpr ⟨k, c, hl, rfl⟩
    have hst := sendAll_stuck ready fuel now (r.sends message) ⟨c.MessageChan, message⟩ hmem
      hnever
    exact ⟨List.ne_nil_of_mem hst.1, hst.2⟩
  · intro pre rest s hs hnever fuel
    have hp := sendAll_prefix ready fuel now pre rest s hnever
    rw [← hs] at hp
    exact hp
  · intro fuel events c
    rw [Room.Run_snoc]
    exact Room.lookup_attach _ c
  · intro fuel events c k hk
    rw [Room.Run_snoc]
    exact Room.lookup_attach_ne _ c hk
  · intro fuel events clientID
    rw [Room.Run_snoc]
    exact Room.lookup_detach _ clientID
  · intro fuel events clientID k hk
    rw [Room.Run_snoc]
    exact Room.lookup_detach_other _ clientID hk

theorem Broadcast_waits_for_readers_witness :
    stalledRoom.Clients.lookup "eve" = some eve ∧ (∀ t, bobOnly t eve.MessageChan = false) ∧
      (∀ fuel, (stalledRoom.Broadcast "m" bobOnly fuel 0).2.pending ≠ [] ∧
        (⟨eve.MessageChan, "m"⟩ : Send) ∉
          (stalledRoom.Broadcast "m" bobOnly fuel 0).2.delivered) ∧
      (∀ fuel, ((stalledRoom.Broadcast "m" bobOnly fuel 0).1.Run
          ([] ++ [.RemoveClient "eve"])).Clients.lookup "eve" = none) ∧
      "bob" ≠ "eve" ∧
      (∀ fuel, ((stalledRoom.Broadcast "m" bobOnly fuel 0).1.Run
          ([] ++ [.RemoveClient "eve"])).Clients.lookup "bob" = some bob) ∧
      (∀ fuel, ((stalledRoom.Broadcast "m" bobOnly fuel 0).1.Run
          ([.RemoveClient "eve"] ++ [.AddClient ⟨"dan", 9⟩])).Clients.lookup "dan"
        = some ⟨"dan", 9⟩) :=
  have hl : stalledRoom.Clients.lookup "eve" = some eve := by decide
  have hne : "bob" ≠ "eve" := by decide
  have hb : stalledRoom.Clients.lookup "bob" = some bob := by decide
  ⟨hl, bobOnly_eve,
   (Broadcast_waits_for_readers stalledRoom "m" bobOnly 0).2.1 "eve" eve hl bobOnly_eve,
   fun fuel => (Broadcast_waits_for_readers stalledRoom "m" bobOnly 0).2.2.2.2.2.2.1 fuel [] "eve",
   hne,
   fun fuel =>
     ((Broadcast_waits_for_readers stalledRoom "m" bobOnly 0).2.2.2.2.2.2.2.1
        fuel [] "eve" "bob" hne).trans hb,
   fun fuel => (Broadcast_waits_for_readers stalledRoom "m" bobOnly 0).2.2.2.2.1 fuel
     [.RemoveClient "eve"] ⟨"dan", 9⟩⟩

/-! ## The publish handler -/

theorem List.set_getElem?_same {α : Type} : ∀ (l : List α) (n : Nat) (a : α),
    l[n]? = some a → l.set n a = l
  | [], _, _, h => by simp at h
  | x :: l, 0, a, h => by
      simp only [List.getElem?_cons_zero, Option.some.injEq] at h
      rw [List.set_cons_zero, h]
  | x :: l, n + 1, a, h => by
      simp only [List.getElem?_cons_succ] at h
      rw [List.set_cons_succ, List.set_getElem?_same l n a h]

/-- The pointer `GetRoom` returns refers to an allocated room, in every server state. -/
theorem ChatServer.GetRoom_allocated (cs : ChatServer) (roomID : String) :
    ∃ room, (cs.GetRoom roomID).2.deref (cs.GetRoom roomID).1 = some room := by
  have hex := ChatServer.existing_after_GetRoom cs roomID
  unfold ChatServer.existing at hex
  split at hex
  · exact absurd hex (by simp)
  · rename_i q hq
    split at hex
    · exact absurd hex (by simp)
    · rename_i room hroom
      split at hex
      · simp only [Option.some.injEq] at hex
        rw [← hex]
        exact ⟨room, hroom⟩
      · exact absurd hex (by simp)

theorem handleSend_405 (aes : Cipher) (cs : ChatServer) (r : Request) (ready : Readers)
    (fuel now : Nat) (h : r.Method ≠ "POST") :
    handleSend aes cs r ready fuel now = ⟨cs, some 405, []⟩ := by
  simp [handleSend, h]

theorem handleSend_400 (aes : Cipher) (cs : ChatServer) (r : Request) (ready : Readers)
    (fuel now : Nat) (hm : r.Method = "POST")
    (h : r.FormValue "room_id" = "" ∨ r.FormValue "message" = "") :
    handleSend aes cs r ready fuel now = ⟨cs, some 400, []⟩ := by
  unfold handleSend
  rw [if_neg (by simp [hm])]
  by_cases hr : r.FormValue "room_id" = ""
  · rw [if_pos hr]
  · rw [if_neg hr]
    rcases h with h | h
    · exact absurd h hr
    · rw [if_pos h]

/-- An accepted request: the state is the one `GetRoom` leaves, the text broadcast is the
encryption of `client_id:message` under the secret of the room, and status 200 is written
when nothing is pending. -/
theorem handleSend_accepted (aes : Cipher) (cs : ChatServer) (r : Request) (ready : Readers)
    (fuel now : Nat) (hm : r.Method = "POST") (hr : r.FormValue "room_id" ≠ "")
    (hmsg : r.FormValue "message" ≠ "") {room : Room}
    (hd : (cs.GetRoom (r.FormValue "room_id")).2.deref (cs.GetRoom (r.FormValue "room_id")).1
      = some room) :
    handleSend aes cs r ready fuel now =
      ⟨(cs.GetRoom (r.FormValue "room_id")).2,
        if (room.Broadcast (aes.Encrypt (r.FormValue "client_id" ++ ":" ++ r.FormValue "message")
            room.Secret) ready fuel now).2.pending = [] then some 200 else none,
        (room.Broadcast (aes.Encrypt (r.FormValue "client_id" ++ ":" ++ r.FormValue "message")
            room.Secret) ready fuel now).2.delivered⟩ := by
  unfold handleSend
  rw [if_neg (by simp [hm]), if_neg hr, if_neg hmsg]
  simp only [hd, Room.Broadcast]
  have hset : (cs.GetRoom (r.FormValue "room_id")).2.heap.set
      (cs.GetRoom (r.FormValue "room_id")).1 room = (cs.GetRoom (r.FormValue "room_id")).2.heap :=
    List.set_getElem?_same _ _ _ hd
  rw [hset]

/-- The example states are what the handlers produce: `bob` joining the fresh server gives
`alphaServer`, and `eve` joining after him gives `stalledServer`. -/
theorem bobJoins_attach :
    handleChat.attach NewChatServer bobJoins 1
        = .ok ⟨alphaServer, 0, bob, generateRoomSecret "alpha"⟩ ∧
      handleChat.attach alphaServer
          { bobJoins with Query := fun key =>
              if key = "room_id" then "alpha" else if key = "client_id" then "eve" else "" } 7
        = .ok ⟨stalledServer, 0, eve, generateRoomSecret "alpha"⟩ := by
  constructor <;> rfl

theorem stalledServer_reachable : Reachable stalledServer :=
  Reachable.run _ _ _ alphaServer_reachable

theorem stalledServer_room :
    (stalledServer.GetRoom "alpha").2.deref (stalledServer.GetRoom "alpha").1
      = some stalledRoom := by
  rfl

theorem carolHi_accepted :
    carolHi.Method = "POST" ∧ carolHi.FormValue "room_id" = "alpha" ∧
      carolHi.FormValue "client_id" = "carol" ∧ carolHi.FormValue "message" = "hi" := by
  decide

theorem Cipher.prefixing_roundTrip : Cipher.prefixing.RoundTrip := by
  intro plaintext secret
  show String.mk ((secret.data ++ plaintext.data).drop secret.data.length) = plaintext
  rw [List.drop_left]

theorem stalledRoom_stuck (message : String) (fuel : Nat) :
    (stalledRoom.Broadcast message bobOnly fuel 0).2.pending ≠ [] ∧
      (stalledRoom.Broadcast message bobOnly fuel 0).2.delivered = [] := by
  have hst := (sendAll_stuck bobOnly fuel 0 (stalledRoom.sends message) ⟨7, message⟩
    (by rw [stalledRoom_sends]; simp) bobOnly_eve).1
  have hp := sendAll_prefix bobOnly fuel 0 [] [⟨1, message⟩] ⟨7, message⟩ bobOnly_eve
  rw [← stalledRoom_sends message] at hp
  exact ⟨List.ne_nil_of_mem hst, List.prefix_nil.mp hp⟩

theorem handleSend_stalled (fuel : Nat) :
    handleSend Cipher.prefixing stalledServer carolHi bobOnly fuel 0 =
      ⟨(stalledServer.GetRoom "alpha").2, none, []⟩ := by
  have h := handleSend_accepted Cipher.prefixing stalledServer carolHi bobOnly fuel 0 rfl
    (by decide) (by decide) stalledServer_room
  rw [h]
  have hs := stalledRoom_stuck (Cipher.prefixing.Encrypt
    (carolHi.FormValue "client_id" ++ ":" ++ carolHi.FormValue "message") stalledRoom.Secret) fuel
  rw [if_neg hs.1, hs.2]
  rfl

/-- C8, as stated, fails: the publish request of `carol` is accepted (method `POST`, room and
message not empty), the server state is reachable, and the handler never answers 200: it is
blocked in the broadcast, in the send to `eve`. -/
theorem handleSend_never_answers :
    carolHi.Method = "POST" ∧ carolHi.FormValue "room_id" ≠ "" ∧
      carolHi.FormValue "message" ≠ "" ∧ Reachable stalledServer ∧
      ¬ ∃ fuel, (handleSend Cipher.prefixing stalledServer carolHi bobOnly fuel 0).status
        = some 200 := by
  refine ⟨rfl, by decide, by decide, stalledServer_reachable, ?_⟩
  rintro ⟨fuel, h⟩
  rw [handleSend_stalled fuel] at h
  exact absurd h (by simp)

/-- C8, amended: `handleSend` answers 405 exactly when the method is not `POST`, and 400
exactly when the method is `POST` and `room_id` or `message` is empty; on these rejections
the server state is unchanged and nothing is sent. On every other request (whatever
`client_id` is) it resolves or creates the room, leaving the state `GetRoom` leaves, and
answers 200 when the broadcast has returned, never another status: it does so when the
reader of every client of the room keeps receiving, and at once when the room has no
client. -/
theorem handleSend_rejects_iff (aes : Cipher) (cs : ChatServer) (r : Request)
    (ready : Readers) (now : Nat) :
    (∀ fuel, (handleSend aes cs r ready fuel now).status = some 405 ↔ r.Method ≠ "POST") ∧
    (∀ fuel, (handleSend aes cs r ready fuel now).status = some 400 ↔
      (r.Method = "POST" ∧ (r.FormValue "room_id" = "" ∨ r.FormValue "message" = ""))) ∧
    ((r.Method ≠ "POST" ∨ r.FormValue "room_id" = "" ∨ r.FormValue "message" = "") →
      ∀ fuel, (handleSend aes cs r ready fuel now).cs = cs ∧
        (handleSend aes cs r ready fuel now).delivered = []) ∧
    (r.Method = "POST" → r.FormValue "room_id" ≠ "" → r.FormValue "message" ≠ "" →
      ∃ room, (cs.GetRoom (r.FormValue "room_id")).2.deref (cs.GetRoom (r.FormValue "room_id")).1
          = some room ∧
        (∀ fuel, (handleSend aes cs r ready fuel now).cs = (cs.GetRoom (r.FormValue "room_id")).2 ∧
          ((handleSend aes cs r ready fuel now).status = some 200 ∨
            (handleSend aes cs r ready fuel now).status = none) ∧
          ((handleSend aes cs r ready fuel now).status = some 200 ↔
            (room.Broadcast (aes.Encrypt (r.FormValue "client_id" ++ ":" ++ r.FormValue "message")
              room.Secret) ready fuel now).2.pending = [])) ∧
        (room.ReadersLive ready →
          ∃ fuel, (handleSend aes cs r ready fuel now).status = some 200) ∧
        (room.Clients = ∅ → ∀ fuel, (handleSend aes cs r ready fuel now).status = some 200)) := by
  have hacc : r.Method = "POST" → r.FormValue "room_id" ≠ "" → r.FormValue "message" ≠ "" →
      ∀ fuel, (handleSend aes cs r ready fuel now).status = some 200 ∨
        (handleSend aes cs r ready fuel now).status = none := by
    intro hm hr hmsg fuel
    obtain ⟨room, hd⟩ := ChatServer.GetRoom_allocated cs (r.FormValue "room_id")
    rw [handleSend_accepted aes cs r ready fuel now hm hr hmsg hd]
    simp only
    split
    · exact Or.inl rfl
    · exact Or.inr rfl
  refine ⟨?_, ?_, ?_, ?_⟩
  · intro fuel
    constructor
    · intro h hm
      by_cases hbad : r.FormValue "room_id" = "" ∨ r.FormValue "message" = ""
      · rw [handleSend_400 aes cs r ready fuel now hm hbad] at h
        exact absurd h (by simp)
      · rw [not_or] at hbad
        rcases hacc hm hbad.1 hbad.2 fuel with h1 | h1 <;> rw [h1] at h <;>
          exact absurd h (by simp)
    · intro hm
      rw [handleSend_405 aes cs r ready fuel now hm]
  · intro fuel
    constructor
    · intro h
      by_cases hm : r.Method = "POST"
      · refine ⟨hm, ?_⟩
        by_contra hbad
        rw [not_or] at hbad
        rcases hacc hm hbad.1 hbad.2 fuel with h1 | h1 <;> rw [h1] at h <;>
          exact absurd h (by simp)
      · rw [handleSend_405 aes cs r ready fuel now hm] at h
        exact absurd h (by simp)
    · rintro ⟨hm, hbad⟩
      rw [handleSend_400 aes cs r ready fuel now hm hbad]
  · intro hbad fuel
    by_cases hm : r.Method = "POST"
    · have hbad1 : r.FormValue "room_id" = "" ∨ r.FormValue "message" = "" := by
        rcases hbad with h | h
        · exact absurd hm h
        · exact h
      rw [handleSend_400 aes cs r ready fuel now hm hbad1]
      exact ⟨rfl, rfl⟩
    · rw [handleSend_405 aes cs r ready fuel now hm]
      exact ⟨rfl, rfl⟩
  · intro hm hr hmsg
    obtain ⟨room, hd⟩ := ChatServer.GetRoom_allocated cs (r.FormValue "room_id")
    refine ⟨room, hd, ?_, ?_, ?_⟩
    · intro fuel
      refine ⟨?_, hacc hm hr hmsg fuel, ?_⟩
      · rw [handleSend_accepted aes cs r ready fuel now hm hr hmsg hd]
      · rw [handleSend_accepted aes cs r ready fuel now hm hr hmsg hd]
        simp only
        constructor
        · intro h
          by_contra hp
          rw [if_neg hp] at h
          exact absurd h (by simp)
        · intro hp
          rw [if_pos hp]
    · intro hlive
      obtain ⟨fuel, t, hf⟩ := Room.sends_complete hlive
        (aes.Encrypt (r.FormValue "client_id" ++ ":" ++ r.FormValue "message") room.Secret) now
      refine ⟨fuel, ?_⟩
      rw [handleSend_accepted aes cs r ready fuel now hm hr hmsg hd]
      simp only [Room.Broadcast, hf, if_true]
    · intro hempty fuel
      have hs : ∀ message, room.sends message = [] := by
        intro message
        simp [Room.sends, hempty]
      rw [handleSend_accepted aes cs r ready fuel now hm hr hmsg hd]
      simp only [Room.Broadcast, hs, sendAll_nil, if_true]

theorem handleSend_rejects_iff_witness :
    (noMessage.Method ≠ "POST" ∨ noMessage.FormValue "room_id" = "" ∨
        noMessage.FormValue "message" = "") ∧
      (∀ fuel, (handleSend Cipher.prefixing stalledServer noMessage bobOnly fuel 0).cs
          = stalledServer ∧
        (handleSend Cipher.prefixing stalledServer noMessage bobOnly fuel 0).delivered = []) ∧
      carolHi.Method = "POST" ∧ carolHi.FormValue "room_id" ≠ "" ∧
      carolHi.FormValue "message" ≠ "" ∧
      ∃ room, (alphaServer.GetRoom (carolHi.FormValue "room_id")).2.deref
          (alphaServer.GetRoom (carolHi.FormValue "room_id")).1 = some room ∧
        (room.ReadersLive allReady →
          ∃ fuel, (handleSend Cipher.prefixing alphaServer carolHi allReady fuel 0).status
            = some 200) :=
  have hm : carolHi.Method = "POST" := rfl
  have hr : carolHi.FormValue "room_id" ≠ "" := by decide
  have hmsg : carolHi.FormValue "message" ≠ "" := by decide
  ⟨Or.inr (Or.inr rfl),
   (handleSend_rejects_iff Cipher.prefixing stalledServer noMessage bobOnly 0).2.2.1
      (Or.inr (Or.inr rfl)),
   hm, hr, hmsg,
   ((handleSend_rejects_iff Cipher.prefixing alphaServer carolHi allReady 0).2.2.2
      hm hr hmsg).imp (fun _ h => ⟨h.1, h.2.2.1⟩)⟩

/-! ## The published text -/

theorem handleChat.attach_secret {cs : ChatServer} {r : Request} {ch : Chan} {a : Attached}
    (h : handleChat.attach cs r ch = .ok a) :
    a.secret = generateRoomSecret (r.Query "room_id") := by
  unfold handleChat.attach at h
  split at h
  · cases h
  · split at h
    · cases h
    · simp only [Except.ok.injEq] at h
      subst h
      rfl

/-- C9, as stated, fails: with a cipher obeying the round-trip law, `carol` publishes `hi` to
room `alpha` in a reachable server state in which `bob` is attached and a goroutine receives
on his channel at every tick; nothing ever arrives on the channel of `bob`, so he writes no
payload: the broadcast is blocked in the send to `eve`. -/
theorem publish_misses_reader :
    Cipher.prefixing.RoundTrip ∧ Reachable stalledServer ∧
      (stalledServer.GetRoom "alpha").2.deref (stalledServer.GetRoom "alpha").1
        = some stalledRoom ∧
      stalledRoom.Clients.lookup "bob" = some bob ∧ bobOnly 0 bob.MessageChan = true ∧
      ¬ ∃ fuel, ∃ s ∈ (handleSend Cipher.prefixing stalledServer carolHi bobOnly fuel 0).delivered,
        s.ch = bob.MessageChan := by
  refine ⟨Cipher.prefixing_roundTrip, stalledServer_reachable, stalledServer_room, by decide,
    rfl, ?_⟩
  rintro ⟨fuel, s, hs, _⟩
  rw [handleSend_stalled fuel] at hs
  exact absurd hs (List.not_mem_nil _)

/-- C9, amended: for every accepted publish with room `r`, publisher `c` and message `m` in
a reachable server state, the text handed to `Broadcast` is
`Encrypt(c ++ ":" ++ m, GetRoom(r).Secret)`, the secret being `generateRoomSecret(r)`: every
send completed carries that text to the channel of a client of the room; when the reader of
every client of the room keeps receiving, the handler answers 200 having sent it to every
client of the room; and, under the round-trip law, a `handleChat` attached to `r` writes
`data: c:m` for that text. -/
theorem publish_round_trip (aes : Cipher) (hrt : aes.RoundTrip) (cs : ChatServer)
    (h : Reachable cs) (r : Request) (hm : r.Method = "POST")
    (hr : r.FormValue "room_id" ≠ "") (hmsg : r.FormValue "message" ≠ "")
    (ready : Readers) (now : Nat) :
    ∃ room, (cs.GetRoom (r.FormValue "room_id")).2.deref (cs.GetRoom (r.FormValue "room_id")).1
        = some room ∧
      room.ID = r.FormValue "room_id" ∧
      room.Secret = generateRoomSecret (r.FormValue "room_id") ∧
      (∀ fuel, ∀ s ∈ (handleSend aes cs r ready fuel now).delivered,
        s.msg = aes.Encrypt (r.FormValue "client_id" ++ ":" ++ r.FormValue "message") room.Secret ∧
        ∃ k c, room.Clients.lookup k = some c ∧ s.ch = c.MessageChan) ∧
      (room.ReadersLive ready →
        ∃ fuel, (handleSend aes cs r ready fuel now).status = some 200 ∧
          (handleSend aes cs r ready fuel now).delivered = room.sends
            (aes.Encrypt (r.FormValue "client_id" ++ ":" ++ r.FormValue "message") room.Secret)) ∧
      (∀ (cs0 : ChatServer) (join : Request) (ch : Chan) (a : Attached),
        handleChat.attach cs0 join ch = .ok a → join.Query "room_id" = r.FormValue "room_id" →
        handleChat.onMessage aes a.secret
            (aes.Encrypt (r.FormValue "client_id" ++ ":" ++ r.FormValue "message") room.Secret)
          = "data: " ++ (r.FormValue "client_id" ++ ":" ++ r.FormValue "message") ++ "\n\n") := by
  obtain ⟨room, hd, hid, hsec⟩ := ChatServer.GetRoom_deref h.sound (r.FormValue "room_id")
  refine ⟨room, hd, hid, hsec, ?_, ?_, ?_⟩
  · intro fuel s hs
    rw [handleSend_accepted aes cs r ready fuel now hm hr hmsg hd] at hs
    obtain ⟨k, c, hl, hsc⟩ := Room.mem_sends.mp (Room.mem_delivered_sends _ _ _ _ _ hs)
    rw [hsc]
    exact ⟨rfl, k, c, hl, rfl⟩
  · intro hlive
    obtain ⟨fuel, t, hf⟩ := Room.sends_complete hlive
      (aes.Encrypt (r.FormValue "client_id" ++ ":" ++ r.FormValue "message") room.Secret) now
    refine ⟨fuel, ?_⟩
    rw [handleSend_accepted aes cs r ready fuel now hm hr hmsg hd]
    simp only [Room.Broadcast, hf, if_true, and_self]
  · intro cs0 join ch a ha hroom
    rw [handleChat.attach_secret ha, hroom, hsec]
    unfold handleChat.onMessage
    rw [hrt]

theorem publish_round_trip_witness :
    Cipher.prefixing.RoundTrip ∧ Reachable alphaServer ∧ carolHi.Method = "POST" ∧
      carolHi.FormValue "room_id" ≠ "" ∧ carolHi.FormValue "message" ≠ "" ∧
      (∃ room, (alphaServer.GetRoom "alpha").2.deref (alphaServer.GetRoom "alpha").1 = some room ∧
        room.Secret = generateRoomSecret "alpha" ∧
        (∀ (cs0 : ChatServer) (join : Request) (ch : Chan) (a : Attached),
          handleChat.attach cs0 join ch = .ok a → join.Query "room_id" = "alpha" →
          handleChat.onMessage Cipher.prefixing a.secret
              (Cipher.prefixing.Encrypt ("carol" ++ ":" ++ "hi") room.Secret)
            = "data: " ++ ("carol" ++ ":" ++ "hi") ++ "\n\n")) ∧
      (handleSend Cipher.prefixing alphaServer carolHi allReady 1 0).delivered
        = [⟨bob.MessageChan, Cipher.prefixing.Encrypt "carol:hi" (generateRoomSecret "alpha")⟩] ∧
      handleChat.onMessage Cipher.prefixing (generateRoomSecret "alpha")
          (Cipher.prefixing.Encrypt "carol:hi" (generateRoomSecret "alpha"))
        = "data: carol:hi\n\n" :=
  have hm : carolHi.Method = "POST" := rfl
  have hr : carolHi.FormValue "room_id" ≠ "" := by decide
  have hmsg : carolHi.FormValue "message" ≠ "" := by decide
  ⟨Cipher.prefixing_roundTrip, alphaServer_reachable, hm, hr, hmsg,
   (publish_round_trip Cipher.prefixing Cipher.prefixing_roundTrip alphaServer
      alphaServer_reachable carolHi hm hr hmsg allReady 0).imp
      (fun _ h => ⟨h.1, h.2.2.1, h.2.2.2.2.2⟩),
   by rfl, by rfl⟩

/-! ## Who reads the client map -/

/-- C5 (defect of the code): the `select` of `Run` has a case for `AddClient` and one for
`RemoveClient` and none for a broadcast; serving the publish of `carol` in the goroutine
`handler 1`, `handleSend` reads the client map of room `alpha` through `Broadcast` in that
goroutine, not in the actor of the room, and this read conflicts with the write by which
the actor registers `eve`. -/
theorem Broadcast_reads_outside_actor :
    (∀ ev : RunEvent, (∃ c, ev = .AddClient c) ∨ (∃ clientID, ev = .RemoveClient clientID)) ∧
      handleSend.accesses alphaServer carolHi 1 = [⟨.handler 1, 0, false⟩] ∧
      Room.stepAccesses 0 (.AddClient eve) = [⟨.actor 0, 0, true⟩] ∧
      Access.Conflicts ⟨.handler 1, 0, false⟩ ⟨.actor 0, 0, true⟩ ∧
      (⟨.handler 1, 0, false⟩ : Access).who ≠ .actor 0 := by
  refine ⟨?_, by rfl, rfl, ⟨rfl, by decide, Or.inr rfl⟩, by decide⟩
  intro ev
  cases ev with
  | AddClient c => exact Or.inl ⟨c, rfl⟩
  | RemoveClient clientID => exact Or.inr ⟨clientID, rfl⟩

end ChatEngine
